import Mathlib

/-!
Shallow embedding of `src/main.py` (feederbot): the command-synchronization
coordinator (`sync_commands`), the fuzzy food matcher (`canonicalize_food_name`,
`find_food`), and the per-user calorie ledger (`feed`, together with the
command handlers `eat_command` / `feed_command`).

Modelling conventions:
  * Python strings are Lean `String`s; character-level work happens on `String.data`
    (`List Char`).  `str.lower()` is `Char.toLower` mapped over the characters and
    `str.strip()` is `trimChars` (both sides); the program's data is ASCII, where
    these agree with Python.
  * `random.choice(xs)` is modelled by an injected natural number `pick`:
    the chosen element is `xs[pick % xs.length]`.  For an empty `xs` the model
    returns `none` (Python would raise `IndexError`; no claim depends on that case).
  * The persistent stores (`diskcache.Index`) are modelled as functions to `Option`:
    `misc_store["synced_commands"]` is an `Option SyncRec` and the user store is
    `Nat → Option UserRecord`.  A Python `dict` keyed by guild id is a function
    `Nat → Option String` built by successive pointwise updates.
  * The external push `await command_tree.sync()` either succeeds or raises; this is
    an injected boolean `pushOk`.  When it raises, `sync_commands` propagates the
    exception, so the statement `misc_store["synced_commands"] = synced_commands`
    on the following line does not run: the model returns the unchanged store and
    records `ok := false`.
  * SHA-256 (`hashlib.sha256(...).hexdigest()`) is implemented in full
    (`sha256hex`), validated against the standard test vectors; `json.dumps` with
    `sort_keys=True` for the fixed command schema `name`/`description` is
    `canonicalJson`, and the list sort `current_commands.sort(key=...)` (a stable
    sort by name) is a stable insertion sort by name.
-/

/-- Python `str.lower()` on the underlying characters (ASCII range, as in the data). -/
def lowerChars (l : List Char) : List Char :=
  l.map Char.toLower

/-- Python `str.strip()`: drop whitespace from both ends. -/
def trimChars (l : List Char) : List Char :=
  ((l.dropWhile Char.isWhitespace).reverse.dropWhile Char.isWhitespace).reverse

/-- Index of the last `')'` in the list, if any.  Used for the greedy semantics of
the regex `\(.+\)`: from a given `'('`, the match extends to the last reachable `')'`. -/
def lastCloseIdx : List Char → Option Nat
  | [] => none
  | c :: cs =>
    match lastCloseIdx cs with
    | some j => some (j + 1)
    | none => if c = ')' then some 0 else none

/-- Operational model of Python `re.sub(r"\(.+\)", "", s)`: scan left to right; at
each `'('` try to match greedily up to the last `')'` that is at distance at least 2
and has no newline strictly in between (`.` does not match a newline); on success the
matched span is removed and scanning resumes after it, on failure the `'('` is kept
and scanning continues.  The recursion is driven by a fuel argument (structural, so
the kernel can evaluate it); every step strictly shortens the list, so any fuel of
at least the list's length gives the same result. -/
def subParensGo (fuel : Nat) (s : List Char) : List Char :=
  match fuel, s with
  | 0, s => s
  | _ + 1, [] => []
  | fuel + 1, c :: cs =>
    if c = '(' then
      match lastCloseIdx (cs.takeWhile (fun x => x ≠ '\n')) with
      | some (j + 1) => subParensGo fuel (cs.drop (j + 2))
      | _ => c :: subParensGo fuel cs
    else c :: subParensGo fuel cs

/-- The regex substitution, run with enough fuel. -/
def subParens (s : List Char) : List Char :=
  subParensGo s.length s

/-- Embedding of `canonicalize_food_name` (src/main.py lines 58-65): lowercase,
remove the greedy `\(.+\)` span, strip surrounding whitespace.  Totality of the
source function (it never raises) is reflected by this being a total Lean function. -/
def canonicalize_food_name (food_name : String) : String :=
  String.mk (trimChars (subParens (lowerChars food_name.data)))

/-- A catalog entry from `foods.yaml`: display name and calorie value. -/
structure Food where
  name : String
  calories : Nat
deriving DecidableEq

/-- Python `s.split()` (no separator): whitespace-delimited words, empties discarded.
The first argument accumulates the current word in reverse. -/
def splitWsAux : List Char → List Char → List (List Char)
  | [], acc => if acc.isEmpty then [] else [acc.reverse]
  | c :: cs, acc =>
    if c.isWhitespace then
      if acc.isEmpty then splitWsAux cs [] else acc.reverse :: splitWsAux cs []
    else splitWsAux cs (c :: acc)

/-- Python `set(s.split())`: the set of whitespace-delimited tokens of a string. -/
def tokenSetOf (s : String) : Finset String :=
  ((splitWsAux s.data []).map String.mk).toFinset

/-- `len(candidate_tokens & query_tokens)` for one catalog entry (src/main.py
lines 85-88): tokens of the canonicalized entry name intersected with the query tokens. -/
def matchScore (query : Finset String) (food : Food) : Nat :=
  (tokenSetOf (canonicalize_food_name food.name) ∩ query).card

/-- One iteration of the selection loop of `find_food` (src/main.py lines 84-94),
carrying `(best_match, result)`. -/
def scoreStep (query : Finset String) (acc : Nat × List Food) (food : Food) : Nat × List Food :=
  let matching := matchScore query food
  if acc.1 < matching then (matching, [food])
  else if matching = acc.1 ∧ 0 < matching then (acc.1, acc.2 ++ [food])
  else acc

/-- `random.choice(l)` with the random draw injected as `pick`. -/
def choiceList (l : List Food) (pick : Nat) : Option Food :=
  l[pick % l.length]?

/-- Embedding of `find_food` (src/main.py lines 68-99).  `foods` is the catalog
loaded at startup, `pick` the injected random draw; `none` is the `None` (NotFound)
result. -/
def find_food (foods : List Food) (food_name : String) (pick : Nat) : Option Food :=
  let q := canonicalize_food_name food_name
  if q = "random" then choiceList foods pick
  else
    let qset := tokenSetOf q
    let br := foods.foldl (scoreStep qset) (0, [])
    if br.2.isEmpty then none else choiceList br.2 pick

/-- A per-user ledger record (`user_store` values): creation time, cumulative
calories, append-only list of eaten food names. -/
structure UserRecord where
  created : Nat
  calories : Nat
  eaten : List String
deriving DecidableEq

/-- The record created on first feeding (src/main.py lines 110-114). -/
def freshUser (now : Nat) : UserRecord :=
  { created := now, calories := 0, eaten := [] }

/-- The ledger update of `feed` (src/main.py lines 108-117): take the existing
record or a fresh one, add the food's calories and append its name. -/
def applyFeeding (existing : Option UserRecord) (food : Food) (now : Nat) : UserRecord :=
  let user := existing.getD (freshUser now)
  { user with
      calories := user.calories + food.calories
      eaten := user.eaten ++ [food.name] }

/-- The user store, `user_store`, as a mapping from user id to record. -/
def UserStore : Type := Nat → Option UserRecord

/-- `user_store[uid] = r`. -/
def setUser (store : UserStore) (uid : Nat) (r : UserRecord) : UserStore :=
  fun x => if x = uid then some r else store x

/-- Embedding of the state effect of `feed` (src/main.py lines 102-117): look the
query up in the catalog; on NotFound the store is unchanged (only a message is sent);
otherwise the ledger update is applied to the record of `feedee`. -/
def feed (feeder feedee : Nat) (food_name : String) (foods : List Food)
    (store : UserStore) (pick now : Nat) : UserStore :=
  match find_food foods food_name pick with
  | none => store
  | some food => setUser store feedee (applyFeeding (store feedee) food now)

/-- Embedding of the `/eat` handler (src/main.py line 158): the interaction user
feeds themselves. -/
def eat_command (interactionUser : Nat) (food_name : String) (foods : List Food)
    (store : UserStore) (pick now : Nat) : UserStore :=
  feed interactionUser interactionUser food_name foods store pick now

/-- Embedding of the `/feed` handler (src/main.py lines 165-166).  The source passes
`interaction.user` for BOTH the feeder and the feedee; the `user` parameter
(`targetUser` here, described as "The user to receive the food") is not forwarded. -/
def feed_command (interactionUser targetUser : Nat) (food_name : String) (foods : List Food)
    (store : UserStore) (pick now : Nat) : UserStore :=
  feed interactionUser interactionUser food_name foods store pick now

/-- Reduction modulo `2 ^ 32`, the word size of SHA-256. -/
def m32 (x : Nat) : Nat := x % 4294967296

/-- Right rotation of a 32-bit word. -/
def rotr32 (n x : Nat) : Nat :=
  Nat.lor (x >>> n) (m32 (x <<< (32 - n)))

/-- SHA-256 big sigma 0. -/
def bsig0 (x : Nat) : Nat :=
  Nat.xor (Nat.xor (rotr32 2 x) (rotr32 13 x)) (rotr32 22 x)

/-- SHA-256 big sigma 1. -/
def bsig1 (x : Nat) : Nat :=
  Nat.xor (Nat.xor (rotr32 6 x) (rotr32 11 x)) (rotr32 25 x)

/-- SHA-256 small sigma 0. -/
def ssig0 (x : Nat) : Nat :=
  Nat.xor (Nat.xor (rotr32 7 x) (rotr32 18 x)) (x >>> 3)

/-- SHA-256 small sigma 1. -/
def ssig1 (x : Nat) : Nat :=
  Nat.xor (Nat.xor (rotr32 17 x) (rotr32 19 x)) (x >>> 10)

/-- The 64 SHA-256 round constants. -/
def kConsts : List Nat :=
  [1116352408, 1899447441, 3049323471, 3921009573, 961987163, 1508970993,
   2453635748, 2870763221, 3624381080, 310598401, 607225278, 1426881987,
   1925078388, 2162078206, 2614888103, 3248222580, 3835390401, 4022224774,
   264347078, 604807628, 770255983, 1249150122, 1555081692, 1996064986,
   2554220882, 2821834349, 2952996808, 3210313671, 3336571891, 3584528711,
   113926993, 338241895, 666307205, 773529912, 1294757372, 1396182291,
   1695183700, 1986661051, 2177026350, 2456956037, 2730485921, 2820302411,
   3259730800, 3345764771, 3516065817, 3600352804, 4094571909, 275423344,
   430227734, 506948616, 659060556, 883997877, 958139571, 1322822218,
   1537002063, 1747873779, 1955562222, 2024104815, 2227730452, 2361852424,
   2428436474, 2756734187, 3204031479, 3329325298]

/-- The SHA-256 initial hash value. -/
def initH : List Nat :=
  [1779033703, 3144134277, 1013904242, 2773480762,
   1359893119, 2600822924, 528734635, 1541459225]

/-- A natural number as 8 big-endian bytes. -/
def be64 (n : Nat) : List Nat :=
  [(n >>> 56) &&& 255, (n >>> 48) &&& 255, (n >>> 40) &&& 255, (n >>> 32) &&& 255,
   (n >>> 24) &&& 255, (n >>> 16) &&& 255, (n >>> 8) &&& 255, n &&& 255]

/-- SHA-256 message padding: append `0x80`, zero bytes, and the 64-bit big-endian
bit length, up to a multiple of 64 bytes. -/
def padMsg (msg : List Nat) : List Nat :=
  let len := msg.length
  let zeros := (64 - ((len + 9) % 64)) % 64
  msg ++ 128 :: (List.replicate zeros 0 ++ be64 (8 * len))

/-- Group bytes into big-endian 32-bit words. -/
def toWords : List Nat → List Nat
  | a :: b :: c :: d :: rest => (((a * 256 + b) * 256 + c) * 256 + d) :: toWords rest
  | _ => []

/-- Group a word list into 16-word blocks. -/
def chunks16 : List Nat → List (List Nat)
  | w0 :: w1 :: w2 :: w3 :: w4 :: w5 :: w6 :: w7 ::
    w8 :: w9 :: w10 :: w11 :: w12 :: w13 :: w14 :: w15 :: rest =>
      [w0, w1, w2, w3, w4, w5, w6, w7, w8, w9, w10, w11, w12, w13, w14, w15] :: chunks16 rest
  | _ => []

/-- One step of the message-schedule extension; `ws` holds the schedule so far,
newest word first. -/
def schedStep (ws : List Nat) : Nat :=
  m32 (ws.getD 15 0 + ssig0 (ws.getD 14 0) + ws.getD 6 0 + ssig1 (ws.getD 1 0))

/-- Extend the (reversed) message schedule by `n` words. -/
def extendW : Nat → List Nat → List Nat
  | 0, ws => ws
  | n + 1, ws => extendW n (schedStep ws :: ws)

/-- The eight SHA-256 working variables. -/
structure Hs where
  a : Nat
  b : Nat
  c : Nat
  d : Nat
  e : Nat
  f : Nat
  g : Nat
  hh : Nat

/-- One SHA-256 compression round, consuming a pair of round constant and
schedule word. -/
def compStep (st : Hs) (kw : Nat × Nat) : Hs :=
  let ch := (st.e &&& st.f) ^^^ ((4294967295 ^^^ st.e) &&& st.g)
  let t1 := m32 (st.hh + bsig1 st.e + ch + kw.1 + kw.2)
  let mj := (st.a &&& st.b) ^^^ (st.a &&& st.c) ^^^ (st.b &&& st.c)
  let t2 := m32 (bsig0 st.a + mj)
  ⟨m32 (t1 + t2), st.a, st.b, st.c, m32 (st.d + t1), st.e, st.f, st.g⟩

/-- Compress a single 16-word block into the running hash value. -/
def compressBlock (hs : List Nat) (block : List Nat) : List Nat :=
  let w := (extendW 48 block.reverse).reverse
  let st0 : Hs := ⟨hs.getD 0 0, hs.getD 1 0, hs.getD 2 0, hs.getD 3 0,
                   hs.getD 4 0, hs.getD 5 0, hs.getD 6 0, hs.getD 7 0⟩
  let st := (kConsts.zip w).foldl compStep st0
  [m32 (hs.getD 0 0 + st.a), m32 (hs.getD 1 0 + st.b), m32 (hs.getD 2 0 + st.c),
   m32 (hs.getD 3 0 + st.d), m32 (hs.getD 4 0 + st.e), m32 (hs.getD 5 0 + st.f),
   m32 (hs.getD 6 0 + st.g), m32 (hs.getD 7 0 + st.hh)]

/-- SHA-256 of a byte list, as eight 32-bit words. -/
def sha256Words (msg : List Nat) : List Nat :=
  (chunks16 (toWords (padMsg msg))).foldl compressBlock initH

/-- Lowercase hexadecimal digit. -/
def hexDigit (n : Nat) : Char := Char.ofNat (if n < 10 then 48 + n else 87 + n)

/-- A 32-bit word as 8 hexadecimal characters. -/
def hexWord (w : Nat) : List Char :=
  [hexDigit ((w >>> 28) &&& 15), hexDigit ((w >>> 24) &&& 15), hexDigit ((w >>> 20) &&& 15),
   hexDigit ((w >>> 16) &&& 15), hexDigit ((w >>> 12) &&& 15), hexDigit ((w >>> 8) &&& 15),
   hexDigit ((w >>> 4) &&& 15), hexDigit (w &&& 15)]

/-- `hashlib.sha256(bytes).hexdigest()`: the full SHA-256 hex digest.  This
implementation matches the standard test vectors, e.g. the digest of `"abc"` is
`ba7816bf8f01cfea414140de5dae2223b00361a396177a9cb410ff61f20015ad`. -/
def sha256hex (msg : List Nat) : String :=
  String.mk ((sha256Words msg).map hexWord).flatten

/-- `s.encode()` for the ASCII strings handled here: one byte per character. -/
def strBytes (s : String) : List Nat := s.data.map Char.toNat

/-- A command definition as serialized by `command.to_dict()`: the schema is fixed
to the fields relevant to serialization order (`name`, `description`); the dict is
an opaque serializable value canonicalized by `json.dumps(..., sort_keys=True)`. -/
structure Cmd where
  name : String
  description : String
deriving DecidableEq

/-- JSON string escaping for the printable ASCII subset: quote and backslash. -/
def escChars (s : String) : String :=
  String.mk (s.data.flatMap (fun c =>
    if c = '"' then ['\\', '"'] else if c = '\\' then ['\\', '\\'] else [c]))

/-- `json.dumps` of one command dict with `sort_keys=True` (keys in lexicographic
order: `description` before `name`) and the default separators. -/
def serializeCmd (c : Cmd) : String :=
  "\x7b\"description\": \"" ++ escChars c.description ++ "\", \"name\": \"" ++
    escChars c.name ++ "\"\x7d"

/-- Lexicographic comparison of character lists by code point: the order Python
uses to compare strings. -/
def charsLe : List Char → List Char → Bool
  | [], _ => true
  | _ :: _, [] => false
  | a :: as, b :: bs =>
    if a.toNat < b.toNat then true
    else if b.toNat < a.toNat then false
    else charsLe as bs

/-- The sort key of `current_commands.sort(key=lambda command: command["name"])`. -/
def nameLe (a b : Cmd) : Prop := charsLe a.name.data b.name.data = true

instance : DecidableRel nameLe := fun a b => instDecidableEqBool _ _

/-- Python `list.sort(key=...)` is a stable sort; a stable insertion sort by name
has the same result. -/
def sortByName (cmds : List Cmd) : List Cmd :=
  List.insertionSort nameLe cmds

/-- `json.dumps(current_commands, sort_keys=True)` after the in-place sort by name
(src/main.py lines 30-32): list brackets, `", "` separators, sorted dicts. -/
def canonicalJson (cmds : List Cmd) : String :=
  "[" ++ String.intercalate ", " ((sortByName cmds).map serializeCmd) ++ "]"

/-- `currentHash` of the command set (src/main.py lines 30-32): SHA-256 hex digest
of the canonical serialization. -/
def currentHash (cmds : List Cmd) : String :=
  sha256hex (strBytes (canonicalJson cmds))

/-- The persisted `synced_commands` mapping: guild id to last-synced hash. -/
def SyncRec : Type := Nat → Option String

/-- The empty mapping (the `{}` default of `misc_store.get`). -/
def emptyRec : SyncRec := fun _ => none

/-- `synced_commands[g] = h` on a dict modelled as a function. -/
def setHash (m : SyncRec) (g : Nat) (h : String) : SyncRec :=
  fun x => if x = g then some h else m x

/-- `misc_store.get("synced_commands", {})` (src/main.py line 34). -/
def recOf (store : Option SyncRec) : SyncRec := store.getD emptyRec

/-- The guilds marked dirty by the loop (src/main.py lines 38-41): those whose
recorded hash is missing or differs from `current`.  `sync_required` is true
exactly when this list is non-empty. -/
def dirtyTargets (current : String) (guilds : List Nat) (last : SyncRec) : List Nat :=
  guilds.filter (fun g => decide (last g ≠ some current))

/-- The `synced_commands` dict rebuilt by the loop (src/main.py lines 35 and 42):
starting from `{}`, every known guild is mapped to `current`. -/
def syncedAll (current : String) (guilds : List Nat) : SyncRec :=
  guilds.foldl (fun m g => setHash m g current) emptyRec

/-- Outcome of one run of `sync_commands`: the store after the run, the dirty
targets the push covered (empty when no push was made), and whether the run
completed without a push failure. -/
structure SyncResult where
  store : Option SyncRec
  pushed : List Nat
  ok : Bool

/-- Embedding of `sync_commands` (src/main.py lines 22-49).  `guilds` is
`client.guilds` as ids, `store` the persisted record, `pushOk` whether the external
`command_tree.sync()` call succeeds.  If no target is dirty, nothing is pushed and
the store is not rewritten.  If the push succeeds, the rebuilt record is persisted;
if it raises, the exception propagates before the store assignment, so the store is
unchanged. -/
def sync_commands (cmds : List Cmd) (guilds : List Nat) (store : Option SyncRec)
    (pushOk : Bool) : SyncResult :=
  let current := currentHash cmds
  let dirty := dirtyTargets current guilds (recOf store)
  if dirty = [] then ⟨store, [], true⟩
  else if pushOk then ⟨some (syncedAll current guilds), dirty, true⟩
  else ⟨store, dirty, false⟩

/-- The running maximum of `best_match` over a list of entries, starting from `b`. -/
def bestOf (query : Finset String) (b : Nat) (l : List Food) : Nat :=
  l.foldl (fun m f => max m (matchScore query f)) b

/-- The ledger invariant: a record's `eaten` history is the name trace of a list of
foods and its `calories` total is the sum of their calorie values, in order. -/
def ledgerConsistent (u : UserRecord) (fs : List Food) : Prop :=
  u.eaten = fs.map Food.name ∧ u.calories = (fs.map Food.calories).sum

theorem setHash_lookup (m : SyncRec) (g : Nat) (h : String) (x : Nat) :
    setHash m g h x = if x = g then some h else m x := rfl

theorem foldl_setHash (cur : String) :
    ∀ (l : List Nat) (m : SyncRec) (x : Nat),
      (l.foldl (fun m g => setHash m g cur) m) x = if x ∈ l then some cur else m x := by
  intro l
  induction l with
  | nil => simp
  | cons a l ih =>
    intro m x
    simp only [List.foldl_cons, ih, List.mem_cons]
    by_cases hx : x ∈ l
    · simp [hx]
    · by_cases hxa : x = a
      · simp [hx, hxa, setHash_lookup]
      · simp [hx, hxa, setHash_lookup]

theorem syncedAll_lookup (cur : String) (guilds : List Nat) (g : Nat) :
    syncedAll cur guilds g = if g ∈ guilds then some cur else none := by
  unfold syncedAll
  rw [foldl_setHash]
  rfl

theorem mem_dirtyTargets {cur : String} {guilds : List Nat} {last : SyncRec} {g : Nat} :
    g ∈ dirtyTargets cur guilds last ↔ g ∈ guilds ∧ last g ≠ some cur := by
  simp [dirtyTargets, List.mem_filter]

theorem dirtyTargets_eq_nil {cur : String} {guilds : List Nat} {last : SyncRec} :
    dirtyTargets cur guilds last = [] ↔ ∀ g ∈ guilds, last g = some cur := by
  simp [dirtyTargets, List.filter_eq_nil_iff]

theorem sync_commands_clean (cmds : List Cmd) (guilds : List Nat) (store : Option SyncRec)
    (pushOk : Bool) (hd : dirtyTargets (currentHash cmds) guilds (recOf store) = []) :
    sync_commands cmds guilds store pushOk = ⟨store, [], true⟩ := by
  simp [sync_commands, hd]

theorem sync_commands_push (cmds : List Cmd) (guilds : List Nat) (store : Option SyncRec)
    (hd : dirtyTargets (currentHash cmds) guilds (recOf store) ≠ []) :
    sync_commands cmds guilds store true =
      ⟨some (syncedAll (currentHash cmds) guilds),
       dirtyTargets (currentHash cmds) guilds (recOf store), true⟩ := by
  simp [sync_commands, hd]

theorem sync_commands_fail (cmds : List Cmd) (guilds : List Nat) (store : Option SyncRec)
    (hd : dirtyTargets (currentHash cmds) guilds (recOf store) ≠ []) :
    sync_commands cmds guilds store false =
      ⟨store, dirtyTargets (currentHash cmds) guilds (recOf store), false⟩ := by
  simp [sync_commands, hd]

/-- C1: if the external push call fails, `sync_commands` does not update the persisted
record (the exception propagates before the store assignment), so a subsequent run
with identical command set and targets computes the same dirty-target list, attempts
the push again, and only then persists the record. -/
theorem sync_push_failure_not_persisted (cmds : List Cmd) (guilds : List Nat)
    (store : Option SyncRec)
    (hdirty : dirtyTargets (currentHash cmds) guilds (recOf store) ≠ []) :
    (sync_commands cmds guilds store false).ok = false ∧
    (sync_commands cmds guilds store false).store = store ∧
    (sync_commands cmds guilds store false).pushed =
      dirtyTargets (currentHash cmds) guilds (recOf store) ∧
    (sync_commands cmds guilds ((sync_commands cmds guilds store false).store) true).pushed =
      dirtyTargets (currentHash cmds) guilds (recOf store) ∧
    (sync_commands cmds guilds ((sync_commands cmds guilds store false).store) true).ok = true ∧
    (sync_commands cmds guilds ((sync_commands cmds guilds store false).store) true).store =
      some (syncedAll (currentHash cmds) guilds) := by
  rw [sync_commands_fail cmds guilds store hdirty]
  rw [sync_commands_push cmds guilds store hdirty]
  exact ⟨rfl, rfl, rfl, rfl, rfl, rfl⟩

/-- Witness for C1 at a concrete input: one never-synced guild, empty command set. -/
theorem sync_push_failure_not_persisted_witness :
    dirtyTargets (currentHash []) [1] (recOf none) ≠ [] ∧
    (sync_commands [] [1] none false).store = none :=
  ⟨by decide, (sync_push_failure_not_persisted [] [1] none (by decide)).2.1⟩

/-- C2: running `sync_commands` twice with an unchanged command set and target set
performs at most one push: after the first successful run every target's recorded
hash equals the current hash, so the second run marks no target dirty, skips the
push, and leaves the record untouched; starting from an absent record with at least
one target, the first run does push (so the total is exactly one push call). -/
theorem sync_reconcile_idempotent (cmds : List Cmd) (guilds : List Nat)
    (store : Option SyncRec) :
    (sync_commands cmds guilds ((sync_commands cmds guilds store true).store) true).pushed
        = [] ∧
    (sync_commands cmds guilds ((sync_commands cmds guilds store true).store) true).store
        = (sync_commands cmds guilds store true).store ∧
    (store = none → guilds ≠ [] → (sync_commands cmds guilds store true).pushed ≠ []) := by
  by_cases hd : dirtyTargets (currentHash cmds) guilds (recOf store) = []
  · rw [sync_commands_clean cmds guilds store true hd]
    rw [sync_commands_clean cmds guilds store true hd]
    refine ⟨rfl, rfl, ?_⟩
    intro hstore hg
    exfalso
    cases guilds with
    | nil => exact hg rfl
    | cons a l =>
      have := dirtyTargets_eq_nil.mp hd a (List.mem_cons_self a l)
      rw [hstore] at this
      exact Option.noConfusion this
  · rw [sync_commands_push cmds guilds store hd]
    have hd2 : dirtyTargets (currentHash cmds) guilds
        (recOf (some (syncedAll (currentHash cmds) guilds))) = [] := by
      apply dirtyTargets_eq_nil.mpr
      intro g hg
      show syncedAll (currentHash cmds) guilds g = some (currentHash cmds)
      rw [syncedAll_lookup, if_pos hg]
    rw [sync_commands_clean cmds guilds _ true hd2]
    exact ⟨rfl, rfl, fun _ _ => hd⟩

/-- Witness for C2 at a concrete input: fresh store, one guild, so the first run
pushes and the second is a no-op. -/
theorem sync_reconcile_idempotent_witness :
    (sync_commands [] [1] ((sync_commands [] [1] none true).store) true).pushed = [] ∧
    (sync_commands [] [1] none true).pushed ≠ [] :=
  ⟨(sync_reconcile_idempotent [] [1] none).1,
   (sync_reconcile_idempotent [] [1] none).2.2 rfl (by decide)⟩

/-- C3: a target in `knownTargets` with no entry in the persisted record is always
marked dirty, so the run pushes (covering that target) and records the current hash
for it. -/
theorem sync_new_target_pushed (cmds : List Cmd) (guilds : List Nat)
    (store : Option SyncRec) (g : Nat) (hg : g ∈ guilds) (hnone : recOf store g = none) :
    g ∈ (sync_commands cmds guilds store true).pushed ∧
    (sync_commands cmds guilds store true).store =
      some (syncedAll (currentHash cmds) guilds) ∧
    syncedAll (currentHash cmds) guilds g = some (currentHash cmds) := by
  have hgd : g ∈ dirtyTargets (currentHash cmds) guilds (recOf store) := by
    apply mem_dirtyTargets.mpr
    refine ⟨hg, ?_⟩
    rw [hnone]
    exact fun h => Option.noConfusion h
  rw [sync_commands_push cmds guilds store (List.ne_nil_of_mem hgd)]
  exact ⟨hgd, rfl, by rw [syncedAll_lookup, if_pos hg]⟩

/-- Witness for C3 at a concrete input: guild 1 was never synced while guild 2
already holds the current hash; guild 1 is still pushed. -/
theorem sync_new_target_pushed_witness :
    (1 : Nat) ∈ [1, 2] ∧
    recOf (some (setHash emptyRec 2 (currentHash []))) 1 = none ∧
    1 ∈ (sync_commands [] [1, 2] (some (setHash emptyRec 2 (currentHash []))) true).pushed :=
  ⟨by decide, by decide,
   (sync_new_target_pushed [] [1, 2] (some (setHash emptyRec 2 (currentHash []))) 1
      (by decide) (by decide)).1⟩

/-- C10: when at least one target is dirty and the push succeeds, the persisted
record is replaced wholesale by the rebuilt mapping, whose entries are exactly the
current known targets, each mapped to the current hash; any entry for a target no
longer known is gone. -/
theorem sync_store_rewritten_wholesale (cmds : List Cmd) (guilds : List Nat)
    (store : Option SyncRec)
    (hdirty : dirtyTargets (currentHash cmds) guilds (recOf store) ≠ []) :
    (sync_commands cmds guilds store true).store =
      some (syncedAll (currentHash cmds) guilds) ∧
    (∀ g h, syncedAll (currentHash cmds) guilds g = some h ↔
      g ∈ guilds ∧ h = currentHash cmds) := by
  constructor
  · rw [sync_commands_push cmds guilds store hdirty]
  · intro g h
    rw [syncedAll_lookup]
    by_cases hg : g ∈ guilds
    · simp [hg, eq_comm]
    · simp [hg]

/-- Witness for C10 at a concrete input: the old record holds a hash for departed
guild 7 only; after the run the record covers exactly guild 1. -/
theorem sync_store_rewritten_wholesale_witness :
    dirtyTargets (currentHash []) [1] (recOf (some (setHash emptyRec 7 "old"))) ≠ [] ∧
    (sync_commands [] [1] (some (setHash emptyRec 7 "old")) true).store =
      some (syncedAll (currentHash []) [1]) :=
  ⟨by decide,
   (sync_store_rewritten_wholesale [] [1] (some (setHash emptyRec 7 "old")) (by decide)).1⟩

/-- C5: the ledger update preserves the invariant that `calories` is the sum of the
calorie values of the foods eaten, in order, and `eaten` is their name trace: a fresh
record starts the trace, every later feeding appends exactly the matched entry's name
and adds exactly its calorie value; feeding a fresh user 80- then 250-calorie items
gives calories 330 and the two names in feeding order. -/
theorem feed_ledger_invariant :
    (∀ (u : UserRecord) (fs : List Food) (food : Food) (now : Nat),
        ledgerConsistent u fs →
        ledgerConsistent (applyFeeding (some u) food now) (fs ++ [food])) ∧
    (∀ (food : Food) (now : Nat), ledgerConsistent (applyFeeding none food now) [food]) ∧
    (∀ now now2 : Nat,
        applyFeeding (some (applyFeeding none ⟨"Toast", 80⟩ now))
            ⟨"French Toast (2 slices)", 250⟩ now2 =
          ⟨now, 330, ["Toast", "French Toast (2 slices)"]⟩) := by
  refine ⟨?_, ?_, ?_⟩
  · rintro u fs food now ⟨he, hc⟩
    constructor
    · simp [applyFeeding, he]
    · simp [applyFeeding, hc]
  · intro food now
    constructor <;> simp [applyFeeding, freshUser]
  · intro now now2
    rfl

/-- Witness for C5 at a concrete input: a record consistent with one previous
80-calorie feeding stays consistent after a 250-calorie feeding. -/
theorem feed_ledger_invariant_witness :
    ledgerConsistent ⟨5, 80, ["Toast"]⟩ [⟨"Toast", 80⟩] ∧
    ledgerConsistent
      (applyFeeding (some ⟨5, 80, ["Toast"]⟩) ⟨"French Toast (2 slices)", 250⟩ 9)
      [⟨"Toast", 80⟩, ⟨"French Toast (2 slices)", 250⟩] :=
  ⟨⟨rfl, rfl⟩,
   feed_ledger_invariant.1 ⟨5, 80, ["Toast"]⟩ [⟨"Toast", 80⟩]
     ⟨"French Toast (2 slices)", 250⟩ 9 ⟨rfl, rfl⟩⟩

/-- C6: evaluated at a concrete input where feeder 1 uses the `/feed` command on
user 2 with a matching query, the handler leaves user 2's record absent and writes
the update to feeder 1's record instead, because line 166 passes `interaction.user`
for both parties; `feed` itself (third conjunct) would credit the feedee if the
handler forwarded the chosen user. -/
theorem feed_command_credits_feeder_bug :
    feed_command 1 2 "toast" [⟨"Toast", 80⟩] (fun _ => none) 0 7 2 = none ∧
    feed_command 1 2 "toast" [⟨"Toast", 80⟩] (fun _ => none) 0 7 1 =
      some ⟨7, 80, ["Toast"]⟩ ∧
    feed 1 2 "toast" [⟨"Toast", 80⟩] (fun _ => none) 0 7 2 = some ⟨7, 80, ["Toast"]⟩ :=
  ⟨by decide, by decide, by decide⟩

/-- C9: when the canonicalized query is the literal `"random"` and the catalog is
non-empty, `find_food` bypasses scoring and returns an entry of the full catalog
(never NotFound); the draw-to-entry map is the identity on indices below the catalog
length, so a uniformly distributed draw selects uniformly over the whole catalog. -/
theorem find_food_random_total (foods : List Food) (food_name : String) (pick : Nat)
    (hq : canonicalize_food_name food_name = "random") (hne : foods ≠ []) :
    (∃ f, find_food foods food_name pick = some f ∧ f ∈ foods) ∧
    (∀ i : Fin foods.length, find_food foods food_name (i : Nat) = some (foods.get i)) := by
  have hlen : 0 < foods.length := List.length_pos.mpr hne
  constructor
  · have hlt : pick % foods.length < foods.length := Nat.mod_lt _ hlen
    refine ⟨foods[pick % foods.length], ?_, List.getElem_mem hlt⟩
    simp [find_food, hq, choiceList, List.getElem?_eq_getElem hlt]
  · intro i
    have hmod : (i : Nat) % foods.length = (i : Nat) := Nat.mod_eq_of_lt i.isLt
    have hlt : (i : Nat) % foods.length < foods.length := by rw [hmod]; exact i.isLt
    simp [find_food, hq, choiceList, List.getElem?_eq_getElem hlt, hmod, List.get_eq_getElem]

/-- Witness for C9 at a concrete input: query `"Random"`, singleton catalog,
arbitrary draw 5. -/
theorem find_food_random_total_witness :
    canonicalize_food_name "Random" = "random" ∧ ([⟨"Toast", 80⟩] : List Food) ≠ [] ∧
    (∃ f, find_food [⟨"Toast", 80⟩] "Random" 5 = some f ∧ f ∈ ([⟨"Toast", 80⟩] : List Food)) :=
  ⟨by decide, by decide,
   (find_food_random_total [⟨"Toast", 80⟩] "Random" 5 (by decide) (by decide)).1⟩

theorem bestOf_cons (q : Finset String) (b : Nat) (f : Food) (l : List Food) :
    bestOf q b (f :: l) = bestOf q (max b (matchScore q f)) l := rfl

theorem le_bestOf (q : Finset String) : ∀ (l : List Food) (b : Nat), b ≤ bestOf q b l := by
  intro l
  induction l with
  | nil => intro b; exact Nat.le_refl b
  | cons f l ih =>
    intro b
    rw [bestOf_cons]
    exact le_trans (Nat.le_max_left _ _) (ih (max b (matchScore q f)))

theorem matchScore_le_bestOf (q : Finset String) :
    ∀ (l : List Food) (b : Nat) (f : Food), f ∈ l → matchScore q f ≤ bestOf q b l := by
  intro l
  induction l with
  | nil => intro b f hf; exact absurd hf (List.not_mem_nil f)
  | cons a l ih =>
    intro b f hf
    rcases List.mem_cons.mp hf with h | h
    · subst h
      rw [bestOf_cons]
      exact le_trans (Nat.le_max_right _ _) (le_bestOf q l _)
    · exact ih _ f h

theorem bestOf_zero_of_all (q : Finset String) :
    ∀ (l : List Food), (∀ f ∈ l, matchScore q f = 0) → bestOf q 0 l = 0 := by
  intro l
  induction l with
  | nil => intro _; rfl
  | cons a l ih =>
    intro h
    rw [bestOf_cons, h a (List.mem_cons_self a l)]
    exact ih (fun f hf => h f (List.mem_cons_of_mem a hf))

theorem scoreLoop_inv (q : Finset String) :
    ∀ (l : List Food) (b : Nat) (res : List Food) (S : List Food),
      (res = [] ↔ b = 0) →
      (∀ f ∈ res, matchScore q f = b ∧ f ∈ S) →
      (∀ f ∈ l, f ∈ S) →
      (l.foldl (scoreStep q) (b, res)).1 = bestOf q b l ∧
      ((l.foldl (scoreStep q) (b, res)).2 = [] ↔ (l.foldl (scoreStep q) (b, res)).1 = 0) ∧
      (∀ f ∈ (l.foldl (scoreStep q) (b, res)).2,
        matchScore q f = (l.foldl (scoreStep q) (b, res)).1 ∧ f ∈ S) := by
  intro l
  induction l with
  | nil =>
    intro b res S h1 h2 _
    exact ⟨rfl, h1, h2⟩
  | cons a l ih =>
    intro b res S h1 h2 h3
    have hstep : List.foldl (scoreStep q) (b, res) (a :: l) =
        List.foldl (scoreStep q) (scoreStep q (b, res) a) l := rfl
    by_cases hlt : b < matchScore q a
    · have hs : scoreStep q (b, res) a = (matchScore q a, [a]) := by
        simp [scoreStep, hlt]
      rw [hstep, hs, bestOf_cons, Nat.max_eq_right (le_of_lt hlt)]
      exact ih (matchScore q a) [a] S
        (iff_of_false (by simp) (by omega))
        (by
          intro f hf
          rw [List.mem_singleton] at hf
          refine ⟨?_, ?_⟩
          · rw [hf]
          · rw [hf]; exact h3 a (List.mem_cons_self a l))
        (fun f hf => h3 f (List.mem_cons_of_mem a hf))
    · by_cases heq : matchScore q a = b ∧ 0 < matchScore q a
      · obtain ⟨hm, hpos⟩ := heq
        have hs : scoreStep q (b, res) a = (b, res ++ [a]) := by
          simp only [scoreStep]
          rw [if_neg hlt, if_pos ⟨hm, hpos⟩]
        rw [hstep, hs, bestOf_cons, Nat.max_eq_left (by omega)]
        exact ih b (res ++ [a]) S
          (iff_of_false (by simp) (by omega))
          (by
            intro f hf
            rcases List.mem_append.mp hf with h | h
            · exact h2 f h
            · rw [List.mem_singleton] at h
              refine ⟨?_, ?_⟩
              · rw [h]; exact hm
              · rw [h]; exact h3 a (List.mem_cons_self a l))
          (fun f hf => h3 f (List.mem_cons_of_mem a hf))
      · have hs : scoreStep q (b, res) a = (b, res) := by
          simp only [scoreStep]
          rw [if_neg hlt, if_neg heq]
        have hle : matchScore q a ≤ b := Nat.not_lt.mp hlt
        rw [hstep, hs, bestOf_cons, Nat.max_eq_left hle]
        exact ih b res S h1 h2 (fun f hf => h3 f (List.mem_cons_of_mem a hf))

/-- C4: for a query whose canonicalized form is not `"random"`, `find_food` returns
NotFound exactly when every catalog entry has empty token intersection with the query
(in particular for an empty query token set), and any returned entry belongs to the
catalog and attains the maximum intersection size over the catalog. -/
theorem find_food_overlap_semantics (foods : List Food) (food_name : String) (pick : Nat)
    (hq : canonicalize_food_name food_name ≠ "random") :
    (find_food foods food_name pick = none ↔
      ∀ f ∈ foods, matchScore (tokenSetOf (canonicalize_food_name food_name)) f = 0) ∧
    (∀ f, find_food foods food_name pick = some f →
      f ∈ foods ∧
      ∀ g ∈ foods, matchScore (tokenSetOf (canonicalize_food_name food_name)) g ≤
        matchScore (tokenSetOf (canonicalize_food_name food_name)) f) := by
  have hinv := scoreLoop_inv (tokenSetOf (canonicalize_food_name food_name)) foods 0 []
    foods (iff_of_true rfl rfl) (by intro f hf; exact absurd hf (List.not_mem_nil f))
    (fun f hf => hf)
  obtain ⟨hfst, hiff, hmem⟩ := hinv
  have hff : find_food foods food_name pick =
      if (foods.foldl (scoreStep (tokenSetOf (canonicalize_food_name food_name))) (0, [])).2.isEmpty
      then none
      else choiceList
        (foods.foldl (scoreStep (tokenSetOf (canonicalize_food_name food_name))) (0, [])).2 pick := by
    simp [find_food, hq]
  constructor
  · rw [hff]
    by_cases hres :
        (foods.foldl (scoreStep (tokenSetOf (canonicalize_food_name food_name))) (0, [])).2 = []
    · rw [if_pos (by simp [hres])]
      constructor
      · intro _ f hf
        have h0 := hiff.mp hres
        rw [hfst] at h0
        have := matchScore_le_bestOf (tokenSetOf (canonicalize_food_name food_name)) foods 0 f hf
        omega
      · intro _
        rfl
    · rw [if_neg (by simp [hres])]
      have hlen := List.length_pos.mpr hres
      have hlt := Nat.mod_lt pick hlen
      constructor
      · intro hcon
        rw [choiceList, List.getElem?_eq_getElem hlt] at hcon
        exact Option.noConfusion hcon
      · intro hall
        exfalso
        have h0 := bestOf_zero_of_all (tokenSetOf (canonicalize_food_name food_name)) foods hall
        rw [← hfst] at h0
        exact hres (hiff.mpr h0)
  · intro f hf
    rw [hff] at hf
    by_cases hres :
        (foods.foldl (scoreStep (tokenSetOf (canonicalize_food_name food_name))) (0, [])).2 = []
    · rw [if_pos (by simp [hres])] at hf
      exact Option.noConfusion hf
    · rw [if_neg (by simp [hres])] at hf
      have hlen := List.length_pos.mpr hres
      have hlt := Nat.mod_lt pick hlen
      rw [choiceList, List.getElem?_eq_getElem hlt] at hf
      have hfmem : f ∈
          (foods.foldl (scoreStep (tokenSetOf (canonicalize_food_name food_name))) (0, [])).2 := by
        rw [← Option.some.inj hf]
        exact List.getElem_mem hlt
      obtain ⟨hscore, hS⟩ := hmem f hfmem
      refine ⟨hS, ?_⟩
      intro g hg
      rw [hscore, hfst]
      exact matchScore_le_bestOf (tokenSetOf (canonicalize_food_name food_name)) foods 0 g hg

/-- Witness for C4 at a concrete input: the spec's no-match example, query
`"xyznotfood"` against a non-empty catalog, returns NotFound. -/
theorem find_food_overlap_semantics_witness :
    canonicalize_food_name "xyznotfood" ≠ "random" ∧
    find_food [⟨"Toast", 80⟩, ⟨"French Toast (2 slices)", 250⟩] "xyznotfood" 0 = none :=
  ⟨by decide,
   (find_food_overlap_semantics [⟨"Toast", 80⟩, ⟨"French Toast (2 slices)", 250⟩]
      "xyznotfood" 0 (by decide)).1.mpr (by decide)⟩

theorem toNat_ofNat_valid (n : Nat) (h : n.isValidChar) : (Char.ofNat n).toNat = n := by
  rw [Char.ofNat, dif_pos h]
  simp [Char.ofNatAux, Char.toNat, UInt32.toNat, BitVec.toNat_ofNatLt]

theorem toLower_eq_iff (c d : Char) (hd : d.toNat < 65) : c.toLower = d ↔ c = d := by
  constructor
  · intro h
    rw [Char.toLower] at h
    split at h
    · exfalso
      rename_i hran
      have hval : (c.toNat + 32).isValidChar := Or.inl (by omega)
      have := congrArg Char.toNat h
      rw [toNat_ofNat_valid _ hval] at this
      omega
    · exact h
  · intro h
    subst h
    rw [Char.toLower]
    split
    · rename_i hran
      omega
    · rfl

theorem not_mem_lowerChars (d : Char) (hd : d.toNat < 65) (l : List Char) (h : d ∉ l) :
    d ∉ lowerChars l := by
  intro hmem
  rw [lowerChars, List.mem_map] at hmem
  obtain ⟨c, hc, hcd⟩ := hmem
  rw [toLower_eq_iff c d hd] at hcd
  exact h (hcd ▸ hc)

theorem subParensGo_fuel_eq :
    ∀ (f1 f2 : Nat) (s : List Char), s.length ≤ f1 → s.length ≤ f2 →
      subParensGo f1 s = subParensGo f2 s := by
  intro f1
  induction f1 with
  | zero =>
    intro f2 s h1 _
    have hs : s = [] := List.eq_nil_of_length_eq_zero (Nat.le_zero.mp h1)
    subst hs
    cases f2 <;> rfl
  | succ f1 ih =>
    intro f2 s h1 h2
    cases s with
    | nil => cases f2 <;> rfl
    | cons c cs =>
      cases f2 with
      | zero => simp at h2
      | succ f2 =>
        simp only [List.length_cons] at h1 h2
        show subParensGo (f1 + 1) (c :: cs) = subParensGo (f2 + 1) (c :: cs)
        rw [subParensGo, subParensGo]
        by_cases hc : c = '('
        · rw [if_pos hc, if_pos hc]
          cases hj : lastCloseIdx (cs.takeWhile (fun x => x ≠ '\n')) with
          | none =>
            show c :: subParensGo f1 cs = c :: subParensGo f2 cs
            rw [ih f2 cs (by omega) (by omega)]
          | some j =>
            cases j with
            | zero =>
              show c :: subParensGo f1 cs = c :: subParensGo f2 cs
              rw [ih f2 cs (by omega) (by omega)]
            | succ j =>
              have hd : (cs.drop (j + 2)).length ≤ cs.length := by
                rw [List.length_drop]; omega
              show subParensGo f1 (cs.drop (j + 2)) = subParensGo f2 (cs.drop (j + 2))
              exact ih f2 (cs.drop (j + 2)) (by omega) (by omega)
        · rw [if_neg hc, if_neg hc, ih f2 cs (by omega) (by omega)]

theorem subParens_cons_no_open (c : Char) (cs : List Char) (hc : c ≠ '(') :
    subParens (c :: cs) = c :: subParens cs := by
  show subParensGo (c :: cs).length (c :: cs) = c :: subParensGo cs.length cs
  rw [List.length_cons, subParensGo, if_neg hc]

theorem subParens_no_open : ∀ (l : List Char), '(' ∉ l → subParens l = l := by
  intro l
  induction l with
  | nil => intro _; rfl
  | cons c cs ih =>
    intro h
    have hc : c ≠ '(' := fun hcon => h (hcon ▸ List.mem_cons_self c cs)
    rw [subParens_cons_no_open c cs hc, ih (fun hcon => h (List.mem_cons_of_mem c hcon))]

theorem takeWhile_append_all (p : Char → Bool) :
    ∀ (l1 l2 : List Char), (∀ c ∈ l1, p c = true) →
      (l1 ++ l2).takeWhile p = l1 ++ l2.takeWhile p := by
  intro l1
  induction l1 with
  | nil => intro l2 _; rfl
  | cons c cs ih =>
    intro l2 h
    simp only [List.cons_append, List.takeWhile_cons, h c (List.mem_cons_self c cs),
      if_true, ih l2 (fun d hd => h d (List.mem_cons_of_mem c hd))]

theorem mem_of_mem_takeWhile {p : Char → Bool} :
    ∀ {l : List Char} {c : Char}, c ∈ l.takeWhile p → c ∈ l := by
  intro l
  induction l with
  | nil => intro c h; exact absurd h (List.not_mem_nil c)
  | cons a as ih =>
    intro c h
    rw [List.takeWhile_cons] at h
    by_cases hp : p a = true
    · rw [if_pos hp] at h
      rcases List.mem_cons.mp h with h | h
      · exact h ▸ List.mem_cons_self a as
      · exact List.mem_cons_of_mem a (ih h)
    · rw [if_neg hp] at h
      exact absurd h (List.not_mem_nil c)

theorem lastCloseIdx_no_close : ∀ (l : List Char), ')' ∉ l → lastCloseIdx l = none := by
  intro l
  induction l with
  | nil => intro _; rfl
  | cons c cs ih =>
    intro h
    have hc : c ≠ ')' := fun hcon => h (hcon ▸ List.mem_cons_self c cs)
    rw [lastCloseIdx, ih (fun hcon => h (List.mem_cons_of_mem c hcon))]
    simp [hc]

theorem lastCloseIdx_append_close :
    ∀ (l1 l2 : List Char), ')' ∉ l2 → lastCloseIdx (l1 ++ ')' :: l2) = some l1.length := by
  intro l1
  induction l1 with
  | nil =>
    intro l2 h
    show lastCloseIdx (')' :: l2) = some 0
    rw [lastCloseIdx, lastCloseIdx_no_close l2 h]
    simp
  | cons c cs ih =>
    intro l2 h
    show lastCloseIdx (c :: (cs ++ ')' :: l2)) = some (cs.length + 1)
    rw [lastCloseIdx, ih l2 h]

theorem subParens_decomp :
    ∀ (pre ann post : List Char), '(' ∉ pre → ann ≠ [] → '\n' ∉ ann →
      '(' ∉ post → ')' ∉ post →
      subParens (pre ++ '(' :: (ann ++ ')' :: post)) = pre ++ post := by
  intro pre
  induction pre with
  | cons c cs ih =>
    intro ann post hpre hann hannNl hpostO hpostC
    have hc : c ≠ '(' := fun hcon => hpre (hcon ▸ List.mem_cons_self c cs)
    rw [List.cons_append, subParens_cons_no_open c _ hc,
      ih ann post (fun hcon => hpre (List.mem_cons_of_mem c hcon)) hann hannNl hpostO hpostC]
    rfl
  | nil =>
    intro ann post hpre hann hannNl hpostO hpostC
    show subParensGo ('(' :: (ann ++ ')' :: post)).length ('(' :: (ann ++ ')' :: post)) =
      [] ++ post
    rw [List.length_cons, subParensGo, if_pos rfl]
    have htw : (ann ++ ')' :: post).takeWhile (fun x => x ≠ '\n') =
        ann ++ ')' :: post.takeWhile (fun x => x ≠ '\n') := by
      have hall : ∀ c ∈ ann ++ [')'], (fun x => decide (x ≠ '\n')) c = true := by
        intro c hc
        rcases List.mem_append.mp hc with h | h
        · simp only [decide_eq_true_eq]
          exact fun hcon => hannNl (hcon ▸ h)
        · rw [List.mem_singleton] at h
          subst h
          decide
      have := takeWhile_append_all (fun x => decide (x ≠ '\n')) (ann ++ [')']) post hall
      simpa [List.append_assoc] using this
    have hno : ')' ∉ post.takeWhile (fun x => x ≠ '\n') :=
      fun hcon => hpostC (mem_of_mem_takeWhile hcon)
    rw [htw, lastCloseIdx_append_close ann _ hno]
    cases hlen : ann.length with
    | zero => exact absurd (List.eq_nil_of_length_eq_zero hlen) hann
    | succ k =>
      have hdrop : (ann ++ ')' :: post).drop (k + 2) = post := by
        have hlen2 : (ann ++ [')']).length = k + 2 := by
          simp [hlen]
        have := List.drop_left (ann ++ [')']) post
        rw [hlen2] at this
        simpa [List.append_assoc] using this
      show subParensGo (ann ++ ')' :: post).length ((ann ++ ')' :: post).drop (k + 2)) =
        [] ++ post
      rw [hdrop]
      have hfuel : post.length ≤ (ann ++ ')' :: post).length := by
        simp only [List.length_append, List.length_cons]
        omega
      rw [subParensGo_fuel_eq _ post.length post hfuel (Nat.le_refl _)]
      exact subParens_no_open post hpostO

/-- C8: `canonicalize_food_name` is total by construction (a Lean function over all
strings; the Python source raises on no input), and on a name consisting of a
paren-free stem, a parenthesized annotation, and a paren-free tail it returns the
lowercased stem and tail with the annotation removed and surrounding whitespace
stripped; a name with no `(` at all is simply lowercased and stripped. -/
theorem canonicalize_food_name_spec (pre ann post : List Char)
    (hpre : '(' ∉ pre) (hann : ann ≠ []) (hannNl : '\n' ∉ ann)
    (hpostO : '(' ∉ post) (hpostC : ')' ∉ post) :
    canonicalize_food_name (String.mk (pre ++ '(' :: (ann ++ ')' :: post))) =
      String.mk (trimChars (lowerChars pre ++ lowerChars post)) ∧
    (∀ s : String, '(' ∉ s.data →
      canonicalize_food_name s = String.mk (trimChars (lowerChars s.data))) := by
  constructor
  · show String.mk (trimChars (subParens (lowerChars (pre ++ '(' :: (ann ++ ')' :: post))))) =
      String.mk (trimChars (lowerChars pre ++ lowerChars post))
    have hlow : lowerChars (pre ++ '(' :: (ann ++ ')' :: post)) =
        lowerChars pre ++ '(' :: (lowerChars ann ++ ')' :: lowerChars post) := by
      simp only [lowerChars, List.map_append, List.map_cons]
      rfl
    rw [hlow, subParens_decomp (lowerChars pre) (lowerChars ann) (lowerChars post)
      (not_mem_lowerChars '(' (by decide) pre hpre)
      (by simpa [lowerChars] using hann)
      (not_mem_lowerChars '\n' (by decide) ann hannNl)
      (not_mem_lowerChars '(' (by decide) post hpostO)
      (not_mem_lowerChars ')' (by decide) post hpostC)]
  · intro s hs
    show String.mk (trimChars (subParens (lowerChars s.data))) =
      String.mk (trimChars (lowerChars s.data))
    rw [subParens_no_open _ (not_mem_lowerChars '(' (by decide) s.data hs)]

/-- Witness for C8 at a concrete input: the catalog name
`"French Toast (2 slices)"` canonicalizes to `"french toast"`. -/
theorem canonicalize_food_name_spec_witness :
    ('(' ∉ "French Toast ".data) ∧ ("2 slices".data ≠ []) ∧
    canonicalize_food_name
        (String.mk ("French Toast ".data ++ '(' :: ("2 slices".data ++ ')' :: "".data))) =
      String.mk (trimChars (lowerChars "French Toast ".data ++ lowerChars "".data)) ∧
    canonicalize_food_name "French Toast (2 slices)" = "french toast" :=
  ⟨by decide, by decide,
   (canonicalize_food_name_spec "French Toast ".data "2 slices".data "".data
      (by decide) (by decide) (by decide) (by decide) (by decide)).1,
   by decide⟩

theorem char_eq_of_toNat_eq (c d : Char) (h : c.toNat = d.toNat) : c = d :=
  Char.ext (UInt32.eq_of_toBitVec_eq (BitVec.toNat_injective h))

theorem charsLe_cons (x y : Char) (xs ys : List Char) :
    charsLe (x :: xs) (y :: ys) =
      if x.toNat < y.toNat then true
      else if y.toNat < x.toNat then false
      else charsLe xs ys := rfl

theorem charsLe_total : ∀ (a b : List Char), charsLe a b = true ∨ charsLe b a = true := by
  intro a
  induction a with
  | nil => intro b; left; rfl
  | cons x xs ih =>
    intro b
    cases b with
    | nil => right; rfl
    | cons y ys =>
      rcases Nat.lt_trichotomy x.toNat y.toNat with h1 | h1 | h1
      · left; rw [charsLe_cons, if_pos h1]
      · rcases ih ys with h | h
        · left; rw [charsLe_cons, if_neg (by omega), if_neg (by omega)]; exact h
        · right; rw [charsLe_cons, if_neg (by omega), if_neg (by omega)]; exact h
      · right; rw [charsLe_cons, if_pos h1]

theorem charsLe_trans :
    ∀ (a b c : List Char), charsLe a b = true → charsLe b c = true → charsLe a c = true := by
  intro a
  induction a with
  | nil => intro b c _ _; rfl
  | cons x xs ih =>
    intro b c hab hbc
    cases b with
    | nil => exact absurd hab (by rw [charsLe]; simp)
    | cons y ys =>
      cases c with
      | nil => exact absurd hbc (by rw [charsLe]; simp)
      | cons z zs =>
        rw [charsLe_cons] at hab hbc ⊢
        rcases Nat.lt_trichotomy x.toNat y.toNat with h1 | h1 | h1
        · rcases Nat.lt_trichotomy y.toNat z.toNat with h2 | h2 | h2
          · rw [if_pos (by omega)]
          · rw [if_pos (by omega)]
          · rw [if_neg (by omega), if_pos h2] at hbc
            exact absurd hbc (by simp)
        · rw [if_neg (by omega), if_neg (by omega)] at hab
          rcases Nat.lt_trichotomy y.toNat z.toNat with h2 | h2 | h2
          · rw [if_pos (by omega)]
          · rw [if_neg (by omega), if_neg (by omega)] at hbc
            rw [if_neg (by omega), if_neg (by omega)]
            exact ih ys zs hab hbc
          · rw [if_neg (by omega), if_pos h2] at hbc
            exact absurd hbc (by simp)
        · rw [if_neg (by omega), if_pos h1] at hab
          exact absurd hab (by simp)

theorem charsLe_antisymm :
    ∀ (a b : List Char), charsLe a b = true → charsLe b a = true → a = b := by
  intro a
  induction a with
  | nil =>
    intro b _ hba
    cases b with
    | nil => rfl
    | cons y ys => exact absurd hba (by rw [charsLe]; simp)
  | cons x xs ih =>
    intro b hab hba
    cases b with
    | nil => exact absurd hab (by rw [charsLe]; simp)
    | cons y ys =>
      rw [charsLe_cons] at hab hba
      rcases Nat.lt_trichotomy x.toNat y.toNat with h1 | h1 | h1
      · rw [if_neg (by omega), if_pos (by omega)] at hba
        exact absurd hba (by simp)
      · rw [if_neg (by omega), if_neg (by omega)] at hab hba
        rw [char_eq_of_toNat_eq x y h1, ih ys hab hba]
      · rw [if_neg (by omega), if_pos (by omega)] at hab
        exact absurd hab (by simp)

theorem sorted_perm_eq_of_nodup_names :
    ∀ (l1 l2 : List Cmd), l1.Perm l2 → l1.Sorted nameLe → l2.Sorted nameLe →
      (l1.map Cmd.name).Nodup → l1 = l2 := by
  intro l1
  induction l1 with
  | nil =>
    intro l2 hperm _ _ _
    exact (hperm.symm.eq_nil).symm
  | cons a t1 ih =>
    intro l2 hperm hs1 hs2 hnodup
    cases l2 with
    | nil =>
      exact absurd hperm.eq_nil (by simp)
    | cons b t2 =>
      have hab : a = b := by
        have ha2 : a ∈ b :: t2 := hperm.mem_iff.mp (List.mem_cons_self a t1)
        have hb1 : b ∈ a :: t1 := hperm.mem_iff.mpr (List.mem_cons_self b t2)
        rcases List.mem_cons.mp ha2 with h | ha2'
        · exact h
        rcases List.mem_cons.mp hb1 with h | hb1'
        · exact h.symm
        have h1 : nameLe a b := List.rel_of_sorted_cons hs1 b hb1'
        have h2 : nameLe b a := List.rel_of_sorted_cons hs2 a ha2'
        have hnames : a.name = b.name :=
          String.ext (charsLe_antisymm a.name.data b.name.data h1 h2)
        exfalso
        have hnotin : a.name ∉ t1.map Cmd.name := by
          rw [List.map_cons, List.nodup_cons] at hnodup
          exact hnodup.1
        apply hnotin
        rw [hnames]
        exact List.mem_map_of_mem Cmd.name hb1'
      subst hab
      rw [ih t2 hperm.cons_inv hs1.of_cons hs2.of_cons
        (by rw [List.map_cons, List.nodup_cons] at hnodup; exact hnodup.2)]

theorem sortByName_perm_eq (l1 l2 : List Cmd) (hperm : l1.Perm l2)
    (hnodup : (l1.map Cmd.name).Nodup) : sortByName l1 = sortByName l2 := by
  apply sorted_perm_eq_of_nodup_names
  · exact (List.perm_insertionSort nameLe l1).trans
      (hperm.trans (List.perm_insertionSort nameLe l2).symm)
  · exact @List.sorted_insertionSort Cmd nameLe _
      ⟨fun a b => charsLe_total a.name.data b.name.data⟩
      ⟨fun a b c => charsLe_trans a.name.data b.name.data c.name.data⟩ l1
  · exact @List.sorted_insertionSort Cmd nameLe _
      ⟨fun a b => charsLe_total a.name.data b.name.data⟩
      ⟨fun a b c => charsLe_trans a.name.data b.name.data c.name.data⟩ l2
  · exact ((List.perm_insertionSort nameLe l1).map Cmd.name).symm.nodup hnodup

set_option maxRecDepth 1000000 in
/-- C7 counterexample: two distinct commands sharing the name `"a"`.  The stable
sort by name alone keeps their original relative order, so the two orderings
serialize differently and their SHA-256 hex digests differ: the claim is false for
command lists with duplicate names. -/
theorem currentHash_perm_counterexample :
    (([⟨"a", "x"⟩, ⟨"a", "y"⟩] : List Cmd).Perm [⟨"a", "y"⟩, ⟨"a", "x"⟩]) ∧
    currentHash [⟨"a", "x"⟩, ⟨"a", "y"⟩] ≠ currentHash [⟨"a", "y"⟩, ⟨"a", "x"⟩] :=
  ⟨List.Perm.swap (⟨"a", "y"⟩ : Cmd) (⟨"a", "x"⟩ : Cmd) [], by decide⟩

/-- C7 as amended: `currentHash` is invariant under permutation of the input command
list whenever the command names are pairwise distinct — which holds for every list
the program can pass here, since a command tree rejects duplicate command names. -/
theorem currentHash_perm_invariant_of_nodup_names (l1 l2 : List Cmd)
    (hperm : l1.Perm l2) (hnodup : (l1.map Cmd.name).Nodup) :
    currentHash l1 = currentHash l2 := by
  unfold currentHash canonicalJson
  rw [sortByName_perm_eq l1 l2 hperm hnodup]

/-- Witness for the amended C7 at a concrete input: two commands with distinct
names, swapped. -/
theorem currentHash_perm_invariant_witness :
    (([⟨"a", "x"⟩, ⟨"b", "z"⟩] : List Cmd).Perm [⟨"b", "z"⟩, ⟨"a", "x"⟩]) ∧
    (([⟨"a", "x"⟩, ⟨"b", "z"⟩] : List Cmd).map Cmd.name).Nodup ∧
    currentHash [⟨"a", "x"⟩, ⟨"b", "z"⟩] = currentHash [⟨"b", "z"⟩, ⟨"a", "x"⟩] :=
  ⟨List.Perm.swap (⟨"b", "z"⟩ : Cmd) (⟨"a", "x"⟩ : Cmd) [], by decide,
   currentHash_perm_invariant_of_nodup_names _ _
     (List.Perm.swap (⟨"b", "z"⟩ : Cmd) (⟨"a", "x"⟩ : Cmd) []) (by decide)⟩
